import Mathlib

/-!
Verification of the mcp-host orchestration loop.

The development shallowly embeds the TypeScript sources:
  * `retryWithExponentialBackoff` (src/cli-client.ts, second concatenated
    document, lines 85-123): retry loop with error classification and
    exponential backoff with jitter;
  * `processStream` / `processQuery` of the `MCPClient` class.  The file
    src/host.ts concatenates two related variants of the class:
      - variant 1 (lines 160-293): `processStream(stream, depth, halt)`
        with the `MAX_TOOL_DEPTH` depth/halt guard; tool results are
        recorded as user-role messages;
      - variant 2 (lines 498-589): `processStream(stream)` without a
        depth guard; tool results are recorded as assistant-role messages
        using the fixed template `Tool result returned for [<name>]: <content>`.
    Both variants share the same per-event stream reduction and the same
    `processQuery` catch block.

Machine-level conventions: JavaScript numbers involved here are modelled
as `Nat` (attempt counters, depths) and `ℚ` (delays, jitter — `Math.random`
yields a real value; all arithmetic performed on delays is exact in ℚ).
JavaScript exceptions are modelled by the type `JSError`, with the
`instanceof Error` distinction made explicit.  `JSON.parse` is kept
abstract (a parameter `p : String → Except String JsonVal`), except for
the code's own short-circuit that maps an empty accumulated payload to
the empty object without parsing.
-/

/-- `startsWithL h n` holds when the list `n` is an initial segment of `h`
(character-level model of string prefix tests). -/
def startsWithL : List Char → List Char → Bool
  | _, [] => true
  | [], _ :: _ => false
  | c :: cs, d :: ds => c == d && startsWithL cs ds

/-- `containsL h n`: the list `n` occurs contiguously inside `h`.
Model of JavaScript `String.prototype.includes`. -/
def containsL : List Char → List Char → Bool
  | [], n => n.isEmpty
  | c :: cs, n => startsWithL (c :: cs) n || containsL cs n

/-- String version of `containsL`: `strIncludes s sub` models `s.includes(sub)`. -/
def strIncludes (s sub : String) : Bool :=
  containsL s.data sub.data

/-- String version of `startsWithL`. -/
def startsWithStr (s pre : String) : Bool :=
  startsWithL s.data pre.data

/-- Concatenation of a list of strings in order. -/
def strJoin : List String → String
  | [] => ""
  | s :: r => s ++ strJoin r

/-- Message roles of the in-memory history (src/host.ts `interface Message`). -/
inductive Role
  | user
  | assistant
deriving DecidableEq, Repr

/-- One entry of the in-memory conversation history (src/host.ts `Message`). -/
structure Message where
  role : Role
  content : String
deriving DecidableEq, Repr

/-- A JavaScript thrown value: either an `Error` instance carrying a
message, or any other throwable (its string rendering kept for display). -/
inductive JSError
  | error (msg : String)
  | nonError (repr : String)
deriving DecidableEq, Repr

/-- `String(error)` as used when an error is appended to a log line.
For `Error` instances JavaScript renders `"Error: <message>"`. -/
def jsErrorToString : JSError → String
  | .error m => "Error: " ++ m
  | .nonError r => r

/-- The `error instanceof Error` test of the sources. -/
def isErrorInstance : JSError → Bool
  | .error _ => true
  | .nonError _ => false

/-- The classification at src/cli-client.ts lines 104-113: the caught error
is re-thrown immediately (no retry) iff it is an `Error` instance whose
message contains none of the substrings `"rate limit"`, `"timeout"`,
`"network"`, `"5"`.  (The source comment next to `includes('5')` reads
`// 5xx errors`.) -/
def throwNonRetryable : JSError → Bool
  | .error m =>
      !(strIncludes m "rate limit") && !(strIncludes m "timeout") &&
      !(strIncludes m "network") && !(strIncludes m "5")
  | .nonError _ => false

/-- Observable outcome of a `retryWithExponentialBackoff` run: the value
returned or error thrown, the number of invocations of the wrapped
operation, and the list of delays slept (in order, jitter included). -/
structure RetryResult (T : Type) where
  result : Except JSError T
  invocations : Nat
  delays : List ℚ
deriving Repr

/-- The `while (true)` loop of `retryWithExponentialBackoff`
(src/cli-client.ts lines 93-122).  `op k` is the outcome of the `k`-th
invocation of the wrapped operation (1-indexed), `jitter k` the value of
`Math.random() * 200` drawn after the `k`-th failed attempt.  `remaining`
counts how many further attempts the `attempt >= maxAttempts` test still
permits (`remaining = maxAttempts - attempt`), `delay` is the mutable
`delay` variable (initially `initialDelay`; note the source updates it to
`min(delay * 2, maxDelay) + jitter` *before* the first sleep, and the
updated value — jitter included — feeds the next doubling). -/
def retryGo {T : Type} (op : Nat → Except JSError T) (jitter : Nat → ℚ)
    (maxDelay : ℚ) : Nat → Nat → ℚ → RetryResult T
  | 0, attempt, _ =>
    match op attempt with
    | .ok v => ⟨.ok v, 1, []⟩
    | .error e => ⟨.error e, 1, []⟩
  | r + 1, attempt, delay =>
    match op attempt with
    | .ok v => ⟨.ok v, 1, []⟩
    | .error e =>
      if throwNonRetryable e then ⟨.error e, 1, []⟩
      else
        let d := min (delay * 2) maxDelay + jitter attempt
        let rest := retryGo op jitter maxDelay r (attempt + 1) d
        ⟨rest.result, rest.invocations + 1, d :: rest.delays⟩

/-- The optional `RetryOptions` record (src/cli-client.ts lines 73-77). -/
structure RetryOptions where
  maxAttempts : Option Nat
  initialDelay : Option ℚ
  maxDelay : Option ℚ

/-- `retryWithExponentialBackoff` (src/cli-client.ts lines 85-123) with the
`??` defaults 3 / 1000 / 10000 applied.  `attempt` starts at 1, so the
loop may retry `maxAttempts - 1` times. -/
def retryWithExponentialBackoff {T : Type} (op : Nat → Except JSError T)
    (jitter : Nat → ℚ) (o : RetryOptions) : RetryResult T :=
  retryGo op jitter (o.maxDelay.getD 10000)
    ((o.maxAttempts.getD 3) - 1) 1 (o.initialDelay.getD 1000)

/-- A minimal image of a parsed JSON value: the code only ever
distinguishes the empty-object short-circuit from a genuinely parsed
payload, so the model keeps the parsed value abstract. -/
inductive JsonVal
  | emptyObj
  | parsedVal (raw : String)
deriving DecidableEq, Repr

/-- `content_block_start` payloads: a `tool_use` block carrying the tool
name, or any other block kind. -/
inductive BlockStart
  | toolUse (name : String)
  | otherBlock
deriving DecidableEq, Repr

/-- `content_block_delta` payloads. -/
inductive Delta
  | textDelta (s : String)
  | inputJsonDelta (partialJson : String)
  | otherDelta
deriving DecidableEq, Repr

/-- The chunk kinds consumed by the `for await (const chunk of stream)`
switch of `processStream`.  `messageDelta` carries the chunk's
`delta.stop_reason` (the source compares it with the string
`'tool_use'`; a natural stop arrives as `'end_turn'`). -/
inductive StreamEvent
  | messageStart
  | contentBlockStart (b : BlockStart)
  | contentBlockDelta (d : Delta)
  | contentBlockStop
  | messageDelta (stopReason : Option String)
  | messageStop
  | unknownEvent (raw : String)
deriving DecidableEq, Repr

/-- One recorded capability invocation: the tool name used, the raw
accumulated argument string handed to `JSON.parse`, and the parsed value. -/
structure Invocation where
  name : String
  rawArgs : String
  args : JsonVal
deriving DecidableEq, Repr

/-- The mutable state of one `processStream` event loop, together with the
observable trace it produces: `cur`, `curToolName`, `curToolInput` are the
local variables `currentMessage`, `currentToolName`,
`currentToolInputString`; `appended` the messages pushed onto
`this.messages`; `invocations` the tool calls executed; `stops` the
`stop_reason`s seen on `message_delta` chunks; `aborted` is set when
`JSON.parse` throws on a non-empty malformed payload (the exception
leaves `processStream`). -/
structure EvState where
  cur : String
  curToolName : String
  curToolInput : String
  appended : List Message
  invocations : List Invocation
  stops : List (Option String)
  aborted : Bool
deriving DecidableEq, Repr

/-- Initial event-loop state (all accumulators empty, lines 174-176). -/
def initEv : EvState := ⟨"", "", "", [], [], [], false⟩

/-- The commit of the accumulated text buffer performed at the top of the
`message_delta` case (`if (currentMessage) { this.messages.push(...) }`):
a non-empty buffer becomes one assistant message, an empty buffer none. -/
def textCommit (cur : String) : List Message :=
  if cur = "" then [] else [⟨.assistant, cur⟩]

/-- The instruction pushed when a tool call arrives while halted
(variant 1, line 270). -/
def instructionText : String :=
  "Please continue your response without using tools."

/-- `const toolArgs = currentToolInputString ? JSON.parse(currentToolInputString) : {}`
(lines 226-228 and 538-540): an empty accumulated payload short-circuits
to the empty object without invoking the parser `p`. -/
def toolArgsOf (p : String → Except String JsonVal) (s : String) :
    Except String JsonVal :=
  if s = "" then .ok .emptyObj else p s

/-- One step of the variant-1 event loop (src/host.ts lines 180-292) on a
single stream, with the recursion into continuation streams elided (the
recursion is modelled separately by `runV1`): `p` models `JSON.parse`,
`execRes` the string pushed for a tool result (the colour-formatted,
JSON-serialized provider response), `halt` the (already entry-adjusted)
halt flag of this stream.  Faithful details: the tool-name variable and
the argument accumulator are never reset; `input_json_delta` fragments
are dropped while `currentToolName` is empty or the fragment is empty
(both JavaScript truthiness tests); on a `tool_use` stop the text buffer
is committed first, then — when not halted — the payload is parsed, the
invocation executed and its result pushed as a user-role message; when
halted, the instruction message is pushed instead. -/
def stepEv (p : String → Except String JsonVal) (execRes : Invocation → String)
    (halt : Bool) (s : EvState) (e : StreamEvent) : EvState :=
  match e with
  | .messageStart => s
  | .contentBlockStop => s
  | .contentBlockStart b =>
    match b with
    | .toolUse n => { s with curToolName := n }
    | .otherBlock => s
  | .contentBlockDelta d =>
    match d with
    | .textDelta t => { s with cur := s.cur ++ t }
    | .inputJsonDelta j =>
      if s.curToolName ≠ "" ∧ j ≠ "" then
        { s with curToolInput := s.curToolInput ++ j }
      else s
    | .otherDelta => s
  | .messageDelta r =>
    let s1 := { s with appended := s.appended ++ textCommit s.cur,
                       stops := s.stops ++ [r] }
    if r = some "tool_use" ∧ halt = false then
      match toolArgsOf p s.curToolInput with
      | .error _ => { s1 with aborted := true }
      | .ok a =>
        let inv : Invocation := ⟨s.curToolName, s.curToolInput, a⟩
        { s1 with invocations := s1.invocations ++ [inv],
                  appended := s1.appended ++ [⟨.user, execRes inv⟩] }
    else if r = some "tool_use" ∧ halt = true then
      { s1 with appended := s1.appended ++ [⟨.user, instructionText⟩] }
    else s1
  | .messageStop => s
  | .unknownEvent _ => s

/-- Fold of `stepEv` over a whole stream; once `aborted` is set the
remaining chunks are not processed (the exception unwinds the loop). -/
def runEv (p : String → Except String JsonVal) (execRes : Invocation → String)
    (halt : Bool) (s : EvState) (events : List StreamEvent) : EvState :=
  events.foldl (fun st e => if st.aborted then st else stepEv p execRes halt st e) s

/-- Number of `message_delta` chunks in a stream. -/
def msgDeltaCount : List StreamEvent → Nat
  | [] => 0
  | .messageDelta _ :: es => msgDeltaCount es + 1
  | _ :: es => msgDeltaCount es

/-- The name carried by the last `tool_use` block start of the stream
(`acc` is the value of `currentToolName` before these events). -/
def lastToolName : List StreamEvent → String → String
  | [], acc => acc
  | .contentBlockStart (.toolUse n) :: es, _ => lastToolName es n
  | _ :: es, acc => lastToolName es acc

/-- All `input_json_delta` fragments of the stream, in arrival order. -/
def allFrags : List StreamEvent → List String
  | [] => []
  | .contentBlockDelta (.inputJsonDelta j) :: es => j :: allFrags es
  | _ :: es => allFrags es

/-- Number of `tool_use` block starts in the stream. -/
def toolStartCount : List StreamEvent → Nat
  | [] => 0
  | .contentBlockStart (.toolUse _) :: es => toolStartCount es + 1
  | _ :: es => toolStartCount es

/-- Every `tool_use` block start carries a non-empty name. -/
def allToolNamesNonempty : List StreamEvent → Bool
  | [] => true
  | .contentBlockStart (.toolUse n) :: es =>
      (n ≠ "" : Bool) && allToolNamesNonempty es
  | _ :: es => allToolNamesNonempty es

/-- No non-empty `input_json_delta` fragment arrives before the first
non-empty `tool_use` block start (`seen` records whether such a block has
already started).  This is the shape of every real completion stream:
argument fragments only occur inside tool-use blocks. -/
def noEarlyFrag : List StreamEvent → Bool → Bool
  | [], _ => true
  | .contentBlockStart (.toolUse n) :: es, seen =>
      noEarlyFrag es (seen || (n ≠ "" : Bool))
  | .contentBlockDelta (.inputJsonDelta j) :: es, seen =>
      ((j = "" : Bool) || seen) && noEarlyFrag es seen
  | _ :: es, seen => noEarlyFrag es seen

/-- Reduced view of one completion stream for the recursion models: the
accumulated text buffer at `message_delta` time and the stop situation
(natural stop, or a `tool_use` stop carrying the accumulated tool name
and raw argument payload). -/
inductive StopOutcome
  | natural
  | toolUse (name payload : String)
deriving DecidableEq, Repr

/-- Outcome of reducing one stream (see `StopOutcome`). -/
structure Outcome where
  text : String
  stop : StopOutcome
deriving DecidableEq, Repr

/-- Observable trace of a recursive `processStream` run: `appended` the
messages pushed (in order), `execs` the `(name, rawPayload)` of each
capability invocation executed, `requests` one flag per continuation
stream requested (`true` iff the request offered the tools list). -/
structure Trace where
  appended : List Message
  execs : List (String × String)
  requests : List Bool
deriving DecidableEq, Repr

/-- The instruction message pushed by the halted `tool_use` branch
(variant 1, lines 268-271, role `user`). -/
def instructionMsg : Message := ⟨.user, instructionText⟩

/-- Recursive continuation protocol of variant 1 (src/host.ts lines
160-293), one reduced stream per step.  `env hist tools` is the outcome
of the stream the completion API returns for history `hist` when `tools`
says whether the tools list was offered; `execRes n payload` is the
string pushed for the result of executing tool `n` (the colour-formatted
serialized provider response, lines 245-252 — pushed with role `user`).
`fuel` bounds how many streams the model observes (the source has no such
bound; a run cut off by fuel simply truncates the trace).  Per stream the
model mirrors the source: on entry `halt` is forced once
`depth >= MAX_TOOL_DEPTH` (lines 169-172); at `message_delta` the text
buffer is committed (lines 216-221); a `tool_use` stop with `halt` unset
executes the tool, pushes its result, requests a continuation offering
tools and recurses at `depth + 1` (lines 224-265); with `halt` set it
pushes the instruction message, requests a continuation without tools
and recurses at the same depth with `halt = true` (lines 266-278).
`JSON.parse` of the payload is elided here (a malformed payload would
abort the turn before the invocation; aborting can only lower the
invocation count, and the event-level model `stepEv` covers parsing). -/
def runV1 (env : List Message → Bool → Outcome)
    (execRes : String → String → String) (maxDepth : Nat) :
    Nat → List Message → Outcome → Nat → Bool → Trace
  | 0, _, _, _, _ => ⟨[], [], []⟩
  | fuel + 1, hist, out, depth, halt =>
    let halt1 := halt || decide (maxDepth ≤ depth)
    let a1 := textCommit out.text
    match out.stop with
    | .natural => ⟨a1, [], []⟩
    | .toolUse n payload =>
      if halt1 then
        let hist1 := hist ++ a1 ++ [instructionMsg]
        let t := runV1 env execRes maxDepth fuel hist1 (env hist1 false) depth true
        ⟨a1 ++ [instructionMsg] ++ t.appended, t.execs, false :: t.requests⟩
      else
        let rmsg : Message := ⟨.user, execRes n payload⟩
        let hist1 := hist ++ a1 ++ [rmsg]
        let t := runV1 env execRes maxDepth fuel hist1 (env hist1 true) (depth + 1) halt1
        ⟨a1 ++ [rmsg] ++ t.appended, (n, payload) :: t.execs, true :: t.requests⟩

/-- A completion API that requests tool `n` with payload `p` on every
stream, whatever the history and whether or not tools are offered: the
"model that always requests a capability" of the recursion-bound test. -/
def alwaysTool (n p : String) : List Message → Bool → Outcome :=
  fun _ _ => ⟨"", .toolUse n p⟩

/-- The fixed tool-result template of variant 2 (line 562). -/
def mkToolResultMsg (n content : String) : String :=
  "Tool result returned for [" ++ n ++ "]: " ++ content

/-- The greppable head of the template. -/
def toolResultMarker : String := "Tool result returned for ["

/-- Recursive continuation protocol of variant 2 (src/host.ts lines
498-589): no depth or halt tracking; every `tool_use` stop executes the
tool, pushes one assistant-role message built with the fixed template
`Tool result returned for [<name>]: <content>` (lines 557-567, where
`<content>` is `toolResult.content.map(c => c.text).join('')`, modelled
by `execContent n payload`), requests a continuation offering tools and
recurses (line 576).  `fuel` merely truncates observation as in `runV1`. -/
def runV2 (env : List Message → Outcome)
    (execContent : String → String → String) :
    Nat → List Message → Outcome → Trace
  | 0, _, _ => ⟨[], [], []⟩
  | fuel + 1, hist, out =>
    let a1 := textCommit out.text
    match out.stop with
    | .natural => ⟨a1, [], []⟩
    | .toolUse n payload =>
      let rmsg : Message := ⟨.assistant, mkToolResultMsg n (execContent n payload)⟩
      let hist1 := hist ++ a1 ++ [rmsg]
      let t := runV2 env execContent fuel hist1 (env hist1)
      ⟨a1 ++ [rmsg] ++ t.appended, (n, payload) :: t.execs, true :: t.requests⟩

/-- Log lines emitted by the `processQuery` catch block, tagged with the
option passed to `this.logger.log`: the first line is logged with
`{ type: 'error' }`, the apology line with no option. -/
inductive LogKind
  | errK
  | plainK
deriving DecidableEq, Repr

/-- The first line of the catch block (lines 316-318 and 628-630). -/
def errorLogLine (e : JSError) : String :=
  "\nError during query processing: " ++ jsErrorToString e ++ "\n"

/-- The apology line (lines 320-325 and 632-637); `assistantStyle` stands
for the opaque `consoleStyles.assistant` colour prelude (logger.ts is not
part of the sources). -/
def apologyLine (assistantStyle msg : String) : String :=
  assistantStyle ++ "I apologize, but I encountered an error: " ++ msg ++ "\n"

/-- Result of one `processQuery` call: final state of `this.messages`,
the value returned (`none` models the implicit `undefined` return of the
catch path), and the display lines the catch block logged. -/
structure QueryResult where
  messages : List Message
  returned : Option (List Message)
  displayed : List (String × LogKind)
deriving DecidableEq, Repr

/-- The try/catch skeleton of `processQuery` (lines 300-328 and 591-640).
The try body is summarized by its outcome: `.ok msgs` when it finishes
with history `msgs` (returned as-is), `.error (e, partialMsgs)` when an
exception `e` escapes the completion call or a capability execution with
`this.messages = partialMsgs` at that point.  The catch block logs one
error-typed line, then — only for `Error` instances — one apology line;
it never touches `this.messages` and never re-throws (totality of this
function models "the process does not crash"). -/
def processQueryModel (assistantStyle : String)
    (body : Except (JSError × List Message) (List Message)) : QueryResult :=
  match body with
  | .ok msgs => ⟨msgs, some msgs, []⟩
  | .error (e, partialMsgs) =>
    ⟨partialMsgs, none,
      (errorLogLine e, .errK) ::
        (match e with
         | .error m => [(apologyLine assistantStyle m, .plainK)]
         | .nonError _ => [])⟩

/-- Exhausting all attempts: if every attempt from `attempt` to
`attempt + remaining` fails retryably, the loop performs exactly
`remaining + 1` invocations and re-throws the error of the last one. -/
theorem retryGo_all_fail {T : Type} (op : Nat → Except JSError T)
    (jitter : Nat → ℚ) (m : ℚ) :
    ∀ remaining attempt d,
      (∀ k, attempt ≤ k → k ≤ attempt + remaining →
        ∃ e, op k = .error e ∧ throwNonRetryable e = false) →
      (retryGo op jitter m remaining attempt d).invocations = remaining + 1 ∧
      ∀ e, op (attempt + remaining) = .error e →
        (retryGo op jitter m remaining attempt d).result = .error e := by
  intro remaining
  induction remaining with
  | zero =>
    intro attempt d hfail
    obtain ⟨e, he, -⟩ := hfail attempt le_rfl (by omega)
    refine ⟨by simp only [retryGo, he], ?_⟩
    intro e2 he2
    rw [Nat.add_zero] at he2
    rw [he] at he2
    injection he2 with h
    simp only [retryGo, he, h]
  | succ r ih =>
    intro attempt d hfail
    obtain ⟨e, he, hnr⟩ := hfail attempt le_rfl (by omega)
    have hrec := ih (attempt + 1) (min (d * 2) m + jitter attempt)
      (fun k h1 h2 => hfail k (by omega) (by omega))
    constructor
    · simp only [retryGo, he, hnr, Bool.false_eq_true, if_false, hrec.1]
    · intro e2 he2
      have h3 : op (attempt + 1 + r) = .error e2 := by
        rw [show attempt + 1 + r = attempt + (r + 1) by omega]; exact he2
      simp only [retryGo, he, hnr, Bool.false_eq_true, if_false,
        hrec.2 e2 h3]

/-- C5: for every retry policy with `maxAttempts = n` (`n ≥ 1`), if the
wrapped operation fails with a retryable error on every attempt,
`retryWithExponentialBackoff` invokes the operation exactly `n` times and
then re-throws the last invocation's error unchanged (the caller receives
that very error value, not a wrapper). -/
theorem claim_C5 {T : Type} (op : Nat → Except JSError T) (jitter : Nat → ℚ)
    (o : RetryOptions) (n : Nat) (hn : 1 ≤ n) (hmax : o.maxAttempts = some n)
    (hfail : ∀ k, 1 ≤ k → k ≤ n →
      ∃ e, op k = .error e ∧ throwNonRetryable e = false) :
    (retryWithExponentialBackoff op jitter o).invocations = n ∧
    ∀ e, op n = .error e →
      (retryWithExponentialBackoff op jitter o).result = .error e := by
  have h := retryGo_all_fail op jitter (o.maxDelay.getD 10000) (n - 1) 1
    (o.initialDelay.getD 1000)
    (fun k h1 h2 => hfail k h1 (by omega))
  rw [retryWithExponentialBackoff, hmax]
  simp only [Option.getD_some]
  refine ⟨by rw [h.1]; omega, ?_⟩
  intro e he
  exact h.2 e (by rw [show 1 + (n - 1) = n by omega]; exact he)

theorem claim_C5_witness :
    (1 : Nat) ≤ 3 ∧
    (retryWithExponentialBackoff (T := Unit)
      (fun _ => .error (.error "timeout")) (fun _ => 0)
      ⟨some 3, some 1000, some 10000⟩).invocations = 3 ∧
    (retryWithExponentialBackoff (T := Unit)
      (fun _ => .error (.error "timeout")) (fun _ => 0)
      ⟨some 3, some 1000, some 10000⟩).result = .error (.error "timeout") := by
  have h := claim_C5 (T := Unit) (fun _ => .error (.error "timeout"))
    (fun _ => 0) ⟨some 3, some 1000, some 10000⟩ 3 (by decide) rfl
    (fun k h1 h2 => ⟨.error "timeout", rfl, by decide⟩)
  exact ⟨by decide, h.1, h.2 (.error "timeout") rfl⟩

/-- C6: evaluation of the code at the failing input.  The error
`Error("expected 5 fields")` is a validation failure, not a rate-limit,
timeout, network or 5xx-class error, so per the claim (and the source's
own `// 5xx errors` comment) it should propagate after exactly one
invocation with no delay; the code classifies it as retryable because
`message.includes('5')` matches the digit `5` anywhere, so with
`maxAttempts = 2` the operation runs twice and one backoff delay is
slept.  A non-`Error` throwable is likewise always retried. -/
theorem claim_C6_eval :
    throwNonRetryable (JSError.error "expected 5 fields") = false ∧
    (retryWithExponentialBackoff (T := Unit)
      (fun _ => .error (.error "expected 5 fields")) (fun _ => 0)
      ⟨some 2, some 1000, some 10000⟩).invocations = 2 ∧
    (retryWithExponentialBackoff (T := Unit)
      (fun _ => .error (.error "expected 5 fields")) (fun _ => 0)
      ⟨some 2, some 1000, some 10000⟩).delays.length = 1 ∧
    throwNonRetryable (JSError.nonError "thrown string") = false := by
  exact ⟨by decide, by decide, by decide, by decide⟩

/-- Min-juggling step for the backoff lower bound: scaling the one-step
lower bound `min (d * 2) m ≤ d1` by a factor `c ≥ 1`. -/
theorem minStepLo (d d1 m c : ℚ) (hm : 0 ≤ m) (hc : 1 ≤ c)
    (h : min (d * 2) m ≤ d1) : min (d * 2 * c) m ≤ min (d1 * c) m := by
  rcases le_total (d * 2) m with h2 | h2
  · rw [min_eq_left h2] at h
    refine le_min (le_trans (min_le_left _ _) ?_) (min_le_right _ _)
    exact mul_le_mul_of_nonneg_right h (by linarith)
  · rw [min_eq_right h2] at h
    refine le_min (le_trans (min_le_right _ _) ?_) (min_le_right _ _)
    calc m ≤ m * c := le_mul_of_one_le_right hm hc
    _ ≤ d1 * c := mul_le_mul_of_nonneg_right h (by linarith)

/-- Min-juggling step for the backoff upper bound: scaling the one-step
upper bound `d1 < min (d * 2) m + 200` by a factor `c > 0`. -/
theorem minStepHi (d d1 m c : ℚ) (hc : 0 < c)
    (h : d1 < min (d * 2) m + 200) :
    min (d1 * c) m < min (d * 2 * c) m + 200 * c := by
  rcases le_total (d * 2 * c) m with h2 | h2
  · rw [min_eq_left h2]
    have h3 : min (d * 2) m ≤ d * 2 := min_le_left _ _
    have h4 : d1 * c < (d * 2 + 200) * c :=
      mul_lt_mul_of_pos_right (by linarith) hc
    calc min (d1 * c) m ≤ d1 * c := min_le_left _ _
    _ < (d * 2 + 200) * c := h4
    _ = d * 2 * c + 200 * c := by ring
  · rw [min_eq_right h2]
    have h5 : 0 < 200 * c := by positivity
    calc min (d1 * c) m ≤ m := min_le_right _ _
    _ < m + 200 * c := by linarith

/-- Positional bounds on the delays slept by the retry loop, starting
from the mutable delay value `d`: the `k`-th delay (0-indexed) lies in
`[min (d * 2 ^ (k + 1)) maxDelay, min (d * 2 ^ (k + 1)) maxDelay + 200 * (2 ^ (k + 1) - 1))`.
Jitter of earlier retries compounds into later delays, hence the widening
`200 * (2 ^ (k + 1) - 1)` band. -/
theorem retryGo_delay_bounds {T : Type} (op : Nat → Except JSError T)
    (jitter : Nat → ℚ) (m : ℚ)
    (hj0 : ∀ k, 0 ≤ jitter k) (hj2 : ∀ k, jitter k < 200) (hm : 0 ≤ m) :
    ∀ remaining attempt d, 0 ≤ d → ∀ k,
      k < (retryGo op jitter m remaining attempt d).delays.length →
      min (d * 2 ^ (k + 1)) m ≤ (retryGo op jitter m remaining attempt d).delays.getD k 0 ∧
      (retryGo op jitter m remaining attempt d).delays.getD k 0
        < min (d * 2 ^ (k + 1)) m + 200 * (2 ^ (k + 1) - 1) := by
  intro remaining
  induction remaining with
  | zero =>
    intro attempt d _ k hk
    exfalso
    rcases hop : op attempt with e | v <;> simp [retryGo, hop] at hk
  | succ r ih =>
    intro attempt d hd k hk
    rcases hop : op attempt with e | v
    case ok => exfalso; simp [retryGo, hop] at hk
    rcases hnr : throwNonRetryable e with _ | _
    case true => exfalso; simp [retryGo, hop, hnr] at hk
    -- retryable: one delay then recursion at the updated delay
    have hd1lo : min (d * 2) m ≤ min (d * 2) m + jitter attempt := by
      have := hj0 attempt; linarith
    have hd1hi : min (d * 2) m + jitter attempt < min (d * 2) m + 200 := by
      have := hj2 attempt; linarith
    have hd1nn : 0 ≤ min (d * 2) m + jitter attempt := by
      have h1 : (0:ℚ) ≤ min (d * 2) m := le_min (by linarith) hm
      have := hj0 attempt; linarith
    cases k with
    | zero =>
      simp only [retryGo, hop, hnr, Bool.false_eq_true, if_false,
        List.getD_cons_zero, zero_add, pow_one]
      refine ⟨hd1lo, ?_⟩
      have h5 := hj2 attempt
      linarith
    | succ k =>
      have hk2 : k < (retryGo op jitter m r (attempt + 1)
          (min (d * 2) m + jitter attempt)).delays.length := by
        simp only [retryGo, hop, hnr, Bool.false_eq_true, if_false,
          List.length_cons] at hk
        omega
      have hrec := ih (attempt + 1) (min (d * 2) m + jitter attempt) hd1nn k hk2
      have hgd : (retryGo op jitter m (r + 1) attempt d).delays.getD (k + 1) 0
          = (retryGo op jitter m r (attempt + 1)
              (min (d * 2) m + jitter attempt)).delays.getD k 0 := by
        simp only [retryGo, hop, hnr, Bool.false_eq_true, if_false,
          List.getD_cons_succ]
      rw [hgd]
      have hc0 : (0:ℚ) < 2 ^ (k + 1) := by positivity
      have hc1 : (1:ℚ) ≤ 2 ^ (k + 1) := by
        calc (1:ℚ) = 1 ^ (k + 1) := (one_pow _).symm
        _ ≤ 2 ^ (k + 1) := pow_le_pow_left₀ (by norm_num) (by norm_num) _
      have hlo := minStepLo d (min (d * 2) m + jitter attempt) m
        (2 ^ (k + 1)) hm hc1 hd1lo
      have hhi := minStepHi d (min (d * 2) m + jitter attempt) m
        (2 ^ (k + 1)) hc0 hd1hi
      have he2 : d * 2 ^ (k + 1 + 1) = d * 2 * 2 ^ (k + 1) := by
        rw [pow_succ]; ring
      have he3 : (200:ℚ) * (2 ^ (k + 1 + 1) - 1)
          = 200 * 2 ^ (k + 1) + 200 * (2 ^ (k + 1) - 1) := by
        rw [pow_succ]; ring
      constructor
      · calc min (d * 2 ^ (k + 1 + 1)) m
            = min (d * 2 * 2 ^ (k + 1)) m := by rw [he2]
        _ ≤ min ((min (d * 2) m + jitter attempt) * 2 ^ (k + 1)) m := hlo
        _ ≤ _ := hrec.1
      · calc (retryGo op jitter m r (attempt + 1)
              (min (d * 2) m + jitter attempt)).delays.getD k 0
            < min ((min (d * 2) m + jitter attempt) * 2 ^ (k + 1)) m
              + 200 * (2 ^ (k + 1) - 1) := hrec.2
        _ < min (d * 2 * 2 ^ (k + 1)) m + 200 * 2 ^ (k + 1)
              + 200 * (2 ^ (k + 1) - 1) := by linarith
        _ = min (d * 2 ^ (k + 1 + 1)) m + 200 * (2 ^ (k + 1 + 1) - 1) := by
              rw [he2, he3]; ring

/-- C7 (amended): the delay slept after the `k`-th failed attempt (the
`k`-th element of the delay trace, 0-indexed here, so attempt `k + 1` in
the claim's 1-indexed counting) lies in
`[min(initialDelay * 2 ^ (k + 1), maxDelay), min(initialDelay * 2 ^ (k + 1), maxDelay) + 200 * (2 ^ (k + 1) - 1))`:
compared with the claim's interval the exponent is `2 ^ k + 1`-fold
rather than `2 ^ (k - 1)`-fold in 1-indexed terms — the source doubles
`delay` before the first sleep — and the jitter band widens to
`200 * (2 ^ (k + 1) - 1)` because each slept delay, jitter included,
feeds the next doubling. -/
theorem claim_C7_amended {T : Type} (op : Nat → Except JSError T)
    (jitter : Nat → ℚ) (o : RetryOptions)
    (hj0 : ∀ k, 0 ≤ jitter k) (hj2 : ∀ k, jitter k < 200)
    (hi : 0 ≤ o.initialDelay.getD 1000) (hm : 0 ≤ o.maxDelay.getD 10000) :
    ∀ k, k < (retryWithExponentialBackoff op jitter o).delays.length →
      min (o.initialDelay.getD 1000 * 2 ^ (k + 1)) (o.maxDelay.getD 10000)
        ≤ (retryWithExponentialBackoff op jitter o).delays.getD k 0 ∧
      (retryWithExponentialBackoff op jitter o).delays.getD k 0
        < min (o.initialDelay.getD 1000 * 2 ^ (k + 1)) (o.maxDelay.getD 10000)
          + 200 * (2 ^ (k + 1) - 1) := by
  intro k hk
  exact retryGo_delay_bounds op jitter (o.maxDelay.getD 10000) hj0 hj2 hm
    ((o.maxAttempts.getD 3) - 1) 1 (o.initialDelay.getD 1000) hi k hk

theorem claim_C7_witness :
    min ((1000:ℚ) * 2 ^ 1) 10000
      ≤ (retryWithExponentialBackoff (T := Unit)
          (fun _ => .error (.error "timeout")) (fun _ => 100)
          ⟨some 3, some 1000, some 10000⟩).delays.getD 0 0 ∧
    (retryWithExponentialBackoff (T := Unit)
        (fun _ => .error (.error "timeout")) (fun _ => 100)
        ⟨some 3, some 1000, some 10000⟩).delays.getD 0 0
      < min ((1000:ℚ) * 2 ^ 1) 10000 + 200 * (2 ^ 1 - 1) := by
  have hlen : (retryWithExponentialBackoff (T := Unit)
      (fun _ => .error (.error "timeout")) (fun _ => 100)
      ⟨some 3, some 1000, some 10000⟩).delays.length = 2 := by
    simp [retryWithExponentialBackoff, retryGo,
      show throwNonRetryable (.error "timeout") = false from by decide]
  have h := claim_C7_amended (T := Unit)
    (fun _ => .error (.error "timeout")) (fun _ => 100)
    ⟨some 3, some 1000, some 10000⟩
    (fun k => by norm_num) (fun k => by norm_num) (by norm_num) (by norm_num)
    0 (by rw [hlen]; norm_num)
  exact h

/-- C7 (counterexample): with the default policy (initialDelay 1000 ms,
maxDelay 10000 ms), a retryable failure and zero jitter, the delay slept
before attempt 2 is 2000 ms; the claim's interval for `k = 1` is
`[min(1000 * 2 ^ 0, 10000), min(1000 * 2 ^ 0, 10000) + 200) = [1000, 1200)`,
which 2000 does not meet. -/
theorem claim_C7_counterexample :
    (retryWithExponentialBackoff (T := Unit)
        (fun _ => .error (.error "timeout")) (fun _ => 0)
        ⟨none, none, none⟩).delays.getD 0 0 = 2000 ∧
    ¬ ((retryWithExponentialBackoff (T := Unit)
          (fun _ => .error (.error "timeout")) (fun _ => 0)
          ⟨none, none, none⟩).delays.getD 0 0
        < min ((1000:ℚ) * 2 ^ (1 - 1)) 10000 + 200) := by
  have h : (retryWithExponentialBackoff (T := Unit)
      (fun _ => .error (.error "timeout")) (fun _ => 0)
      ⟨none, none, none⟩).delays = [2000, 4000] := by
    simp [retryWithExponentialBackoff, retryGo,
      show throwNonRetryable (.error "timeout") = false from by decide]
    norm_num [min_def]
  rw [h]
  norm_num [min_def]

/-- C3 (amended): when an exception escapes the completion call or a
capability execution, the turn aborts (`processQuery` returns
`undefined`), every history entry appended before the failure is
preserved unchanged and nothing is appended to the history itself; the
catch block (which never re-throws: the process does not crash) displays
at least one human-readable error line: always the generic
`Error during query processing` line, plus exactly one apology line iff
the thrown value is an `Error` instance — so an `Error` abort displays
two lines and a non-`Error` abort displays one. -/
theorem claim_C3_amended (st : String) (e : JSError) (pm : List Message) :
    (processQueryModel st (.error (e, pm))).messages = pm ∧
    (processQueryModel st (.error (e, pm))).returned = none ∧
    (processQueryModel st (.error (e, pm))).displayed.countP
        (fun l => decide (l.2 = LogKind.plainK))
      = (if isErrorInstance e then 1 else 0) ∧
    1 ≤ (processQueryModel st (.error (e, pm))).displayed.length ∧
    (processQueryModel st (.error (e, pm))).displayed.length
      = (if isErrorInstance e then 2 else 1) := by
  cases e <;>
    simp [processQueryModel, isErrorInstance, List.countP_cons, List.countP_nil]

/-- C3 (counterexample): the claim's "exactly one apology/error message"
fails on both readings.  Counting apology messages: a non-`Error`
throwable (JavaScript permits `throw "boom"`) displays zero apology
lines.  Counting displayed lines: an `Error` abort displays two (the
generic error line and the apology).  In both runs the thrown value
escapes the completion call with one user message already in history. -/
theorem claim_C3_counterexample :
    (processQueryModel "" (.error (.nonError "boom",
        [⟨Role.user, "q"⟩]))).displayed.countP
      (fun l => decide (l.2 = LogKind.plainK)) = 0 ∧
    (processQueryModel "" (.error (.error "boom",
        [⟨Role.user, "q"⟩]))).displayed.length = 2 ∧
    ¬ ((0:Nat) = 1) ∧ ¬ ((2:Nat) = 1) := by
  decide

/-- C8: a `tool_use` stop reached with an empty accumulated argument
payload invokes the capability with the empty object as its effective
arguments (the `currentToolInputString ? JSON.parse(...) : {}`
short-circuit) and raises no error: the parser is never consulted and
the loop is not aborted. -/
theorem claim_C8 (p : String → Except String JsonVal)
    (execRes : Invocation → String) (s : EvState)
    (h : s.curToolInput = "") :
    (stepEv p execRes false s (.messageDelta (some "tool_use"))).invocations
      = s.invocations ++ [⟨s.curToolName, "", JsonVal.emptyObj⟩] ∧
    (stepEv p execRes false s (.messageDelta (some "tool_use"))).aborted
      = s.aborted := by
  simp [stepEv, h, toolArgsOf]

theorem claim_C8_witness :
    initEv.curToolInput = "" ∧
    (stepEv (fun str => .ok (.parsedVal str)) (fun i => i.name) false initEv
        (.messageDelta (some "tool_use"))).invocations
      = [⟨"", "", JsonVal.emptyObj⟩] ∧
    (stepEv (fun str => .ok (.parsedVal str)) (fun i => i.name) false initEv
        (.messageDelta (some "tool_use"))).aborted = false := by
  have h := claim_C8 (fun str => .ok (.parsedVal str)) (fun i => i.name)
    initEv rfl
  exact ⟨rfl, by simpa [initEv] using h.1, by simpa [initEv] using h.2⟩

/-- C9: reducing the stream `textDelta "Hi"`, `textDelta " there"`,
`message_delta` with a natural stop (`end_turn`) commits exactly one
assistant message `"Hi there"` and surfaces that stop reason with no
invocation; in general a `message_delta` with a non-`tool_use` stop
commits a non-empty accumulated text buffer as exactly one assistant
message and an empty buffer as none. -/
theorem claim_C9 (p : String → Except String JsonVal)
    (execRes : Invocation → String) (halt : Bool) :
    (runEv p execRes halt initEv
        [.contentBlockDelta (.textDelta "Hi"),
         .contentBlockDelta (.textDelta " there"),
         .messageDelta (some "end_turn")]).appended
      = [⟨Role.assistant, "Hi there"⟩] ∧
    (runEv p execRes halt initEv
        [.contentBlockDelta (.textDelta "Hi"),
         .contentBlockDelta (.textDelta " there"),
         .messageDelta (some "end_turn")]).stops = [some "end_turn"] ∧
    (runEv p execRes halt initEv
        [.contentBlockDelta (.textDelta "Hi"),
         .contentBlockDelta (.textDelta " there"),
         .messageDelta (some "end_turn")]).invocations = [] ∧
    (∀ (s : EvState) (r : Option String), r ≠ some "tool_use" →
      (stepEv p execRes halt s (.messageDelta r)).appended
        = s.appended ++ (if s.cur = "" then [] else [⟨Role.assistant, s.cur⟩])) := by
  refine ⟨?_, ?_, ?_, ?_⟩
  · simp [runEv, stepEv, initEv, textCommit]
  · simp [runEv, stepEv, initEv, textCommit]
  · simp [runEv, stepEv, initEv, textCommit]
  · intro s r hr
    simp [stepEv, hr, textCommit]

theorem claim_C9_witness :
    (some "end_turn" : Option String) ≠ some "tool_use" ∧
    (stepEv (fun str => .ok (.parsedVal str)) (fun i => i.name) false
        ⟨"Hi", "", "", [], [], [], false⟩
        (.messageDelta (some "end_turn"))).appended
      = [] ++ (if ("Hi" : String) = "" then []
          else [⟨Role.assistant, "Hi"⟩]) := by
  refine ⟨by decide, ?_⟩
  exact (claim_C9 (fun str => .ok (.parsedVal str)) (fun i => i.name)
    false).2.2.2 ⟨"Hi", "", "", [], [], [], false⟩ (some "end_turn") (by decide)

/-- A list is an initial segment of itself followed by anything. -/
theorem startsWithL_append_self :
    ∀ (a b : List Char), startsWithL (a ++ b) a = true := by
  intro a
  induction a with
  | nil => intro b; rw [List.nil_append]; cases b <;> rfl
  | cons c cs ih => intro b; simp [startsWithL, ih]

/-- Every message built with the tool-result template starts with the
greppable marker, whatever the capability name and result content. -/
theorem mkToolResultMsg_starts (n c : String) :
    startsWithStr (mkToolResultMsg n c) toolResultMarker = true := by
  show startsWithL (mkToolResultMsg n c).data toolResultMarker.data = true
  rw [mkToolResultMsg, toolResultMarker, String.data_append,
    String.data_append, String.data_append, List.append_assoc,
    List.append_assoc]
  exact startsWithL_append_self _ _

/-- Inserting an element in front of a sublist survives prepending list
material on the large side. -/
theorem sublist_cons_middle {A : Type} (x : A) (l1 l2 l3 : List A)
    (h : l3.Sublist l2) : (x :: l3).Sublist (l1 ++ [x] ++ l2) := by
  have h1 : (x :: l3).Sublist (x :: l2) := List.Sublist.cons₂ _ h
  have h2 : (x :: l2).Sublist (l1 ++ [x] ++ l2) := by
    rw [List.append_assoc]
    exact List.sublist_append_right l1 (x :: l2)
  exact h1.trans h2

/-- C2: in the variant-2 loop every successful capability invocation
appends its result to the history as exactly one assistant-role message
whose content is the template `Tool result returned for [<name>]: <content>`
with `<content>` the invocation's text content: the template messages of
the executed invocations form a sublist of the appended history in
invocation order, and — whenever the model's own text never starts with
the marker — the assistant messages carrying the marker are in bijection
with the executed invocations (exactly one per invocation, so
re-submitting the history presents results as already-returned). -/
theorem claim_C2 (env : List Message → Outcome) (ec : String → String → String)
    (henv : ∀ h, startsWithStr (env h).text toolResultMarker = false) :
    ∀ fuel hist out, startsWithStr out.text toolResultMarker = false →
      ((runV2 env ec fuel hist out).execs.map
          (fun e => (⟨Role.assistant, mkToolResultMsg e.1 (ec e.1 e.2)⟩ : Message))).Sublist
        (runV2 env ec fuel hist out).appended ∧
      (runV2 env ec fuel hist out).appended.countP
          (fun mg => decide (mg.role = Role.assistant) &&
            startsWithStr mg.content toolResultMarker)
        = (runV2 env ec fuel hist out).execs.length := by
  intro fuel
  induction fuel with
  | zero => intro hist out hout; simp [runV2]
  | succ f ih =>
    intro hist out hout
    rcases hstop : out.stop with _ | ⟨n, payload⟩
    · constructor
      · simp [runV2, hstop]
      · by_cases hx : out.text = "" <;>
          simp [runV2, hstop, textCommit, hx, hout]
    · have hrec := ih
        (hist ++ textCommit out.text ++ [⟨.assistant, mkToolResultMsg n (ec n payload)⟩])
        (env (hist ++ textCommit out.text ++ [⟨.assistant, mkToolResultMsg n (ec n payload)⟩]))
        (henv _)
      constructor
      · simp only [runV2, hstop, List.map_cons]
        exact sublist_cons_middle _ _ _ _ hrec.1
      · have h1 : (textCommit out.text).countP
            (fun mg => decide (mg.role = Role.assistant) &&
              startsWithStr mg.content toolResultMarker) = 0 := by
          by_cases hx : out.text = "" <;> simp [textCommit, hx, hout]
        have h2 : ([(⟨Role.assistant, mkToolResultMsg n (ec n payload)⟩ : Message)]).countP
            (fun mg => decide (mg.role = Role.assistant) &&
              startsWithStr mg.content toolResultMarker) = 1 := by
          simp [List.countP_cons, mkToolResultMsg_starts]
        simp only [runV2, hstop]
        rw [List.countP_append, List.countP_append, h1, h2, hrec.2]
        simp [List.length_cons]
        omega

theorem claim_C2_witness :
    ((runV2 (fun _ => ⟨"ok", .natural⟩) (fun _ _ => "3") 2 []
        ⟨"", .toolUse "add" ""⟩).execs.map
        (fun e => (⟨Role.assistant,
          mkToolResultMsg e.1 ((fun _ _ => "3") e.1 e.2)⟩ : Message))).Sublist
      ((runV2 (fun _ => ⟨"ok", .natural⟩) (fun _ _ => "3") 2 []
        ⟨"", .toolUse "add" ""⟩).appended) ∧
    (runV2 (fun _ => ⟨"ok", .natural⟩) (fun _ _ => "3") 2 []
        ⟨"", .toolUse "add" ""⟩).appended.countP
        (fun mg => decide (mg.role = Role.assistant) &&
          startsWithStr mg.content toolResultMarker)
      = (runV2 (fun _ => ⟨"ok", .natural⟩) (fun _ _ => "3") 2 []
        ⟨"", .toolUse "add" ""⟩).execs.length :=
  claim_C2 (fun _ => ⟨"ok", .natural⟩) (fun _ _ => "3")
    (fun h => (by decide :
      startsWithStr (Outcome.mk "ok" StopOutcome.natural).text
        toolResultMarker = false))
    2 [] ⟨"", .toolUse "add" ""⟩ (by decide)

/-- A halted variant-1 run never executes a capability, however many
continuation streams it still processes. -/
theorem runV1_halted_execs (env : List Message → Bool → Outcome)
    (er : String → String → String) (maxD : Nat) :
    ∀ fuel hist out depth,
      (runV1 env er maxD fuel hist out depth true).execs = [] := by
  intro fuel
  induction fuel with
  | zero => intro hist out depth; rfl
  | succ f ih =>
    intro hist out depth
    rcases hstop : out.stop with _ | ⟨n, payload⟩
    · simp [runV1, hstop]
    · simp [runV1, hstop, ih]

/-- Depth bookkeeping of variant 1: starting un-halted at `depth`, at
most `maxD - depth` capability invocations can still be executed. -/
theorem runV1_execs_le (env : List Message → Bool → Outcome)
    (er : String → String → String) (maxD : Nat) :
    ∀ fuel hist out depth,
      (runV1 env er maxD fuel hist out depth false).execs.length
        ≤ maxD - depth := by
  intro fuel
  induction fuel with
  | zero => intro hist out depth; simp [runV1]
  | succ f ih =>
    intro hist out depth
    rcases hstop : out.stop with _ | ⟨n, payload⟩
    · simp [runV1, hstop]
    · by_cases hd : maxD ≤ depth
      · simp [runV1, hstop, hd, runV1_halted_execs]
      · have h2 := ih
          (hist ++ (textCommit out.text ++ [⟨.user, er n payload⟩]))
          (env (hist ++ (textCommit out.text ++ [⟨.user, er n payload⟩])) true)
          (depth + 1)
        simp [runV1, hstop, hd]
        omega

/-- Against the always-requesting completion API, an un-halted variant-1
run with enough fuel executes exactly `maxD - depth` invocations. -/
theorem runV1_alwaysTool_execs (n p : String)
    (er : String → String → String) (maxD : Nat) :
    ∀ fuel depth hist, depth ≤ maxD → maxD - depth ≤ fuel →
      (runV1 (alwaysTool n p) er maxD fuel hist
        ⟨"", .toolUse n p⟩ depth false).execs.length = maxD - depth := by
  intro fuel
  induction fuel with
  | zero =>
    intro depth hist hle hfuel
    have : maxD - depth = 0 := by omega
    simp [runV1, this]
  | succ f ih =>
    intro depth hist hle hfuel
    by_cases hd : maxD ≤ depth
    · have h0 : maxD - depth = 0 := by omega
      simp [runV1, hd, runV1_halted_execs, h0, alwaysTool]
    · have h2 := ih (depth + 1)
        (hist ++ [⟨.user, er n p⟩]) (by omega) (by omega)
      simp [runV1, alwaysTool, hd, textCommit]
      simp [alwaysTool, textCommit] at h2
      omega

/-- C1: every variant-1 query run starting from recursion state
`{depth 0, halted false}` executes at most `maxD` capability invocations
(the source fixes `maxD = MAX_TOOL_DEPTH = 10`); once halted, no
continuation of the query ever executes a capability; and against a
model that always requests a capability, exactly `maxD` invocations are
executed (given at least `maxD` observed streams). -/
theorem claim_C1 (env : List Message → Bool → Outcome)
    (er : String → String → String) (maxD fuel : Nat)
    (hist : List Message) (out : Outcome) :
    (runV1 env er maxD fuel hist out 0 false).execs.length ≤ maxD ∧
    (∀ depth hist2 out2,
      (runV1 env er maxD fuel hist2 out2 depth true).execs = []) ∧
    (∀ n p, maxD ≤ fuel →
      (runV1 (alwaysTool n p) er maxD fuel hist
        ⟨"", .toolUse n p⟩ 0 false).execs.length = maxD) := by
  refine ⟨?_, ?_, ?_⟩
  · have h := runV1_execs_le env er maxD fuel hist out 0
    omega
  · intro depth hist2 out2
    exact runV1_halted_execs env er maxD fuel hist2 out2 depth
  · intro n p hf
    have h := runV1_alwaysTool_execs n p er maxD fuel 0 hist
      (Nat.zero_le _) (by omega)
    omega

theorem claim_C1_witness :
    (2:Nat) ≤ 5 ∧
    (runV1 (alwaysTool "t" "") (fun _ _ => "r") 2 5 []
      ⟨"", .toolUse "t" ""⟩ 0 false).execs.length = 2 :=
  ⟨by decide,
    (claim_C1 (alwaysTool "t" "") (fun _ _ => "r") 2 5 []
      ⟨"", .toolUse "t" ""⟩).2.2 "t" "" (by decide)⟩

/-- C4 (amended): while halted, a `tool_use` stop executes nothing, every
continuation stream is requested without offering capabilities, and each
such request is preceded by exactly one instruction message (role `user`,
content `Please continue your response without using tools.`) — the
user-role messages a halted run appends are precisely the instruction
messages, one per requested continuation.  Contrary to the claim, the
handling does not stop after one continuation: each further
capability-requesting stream repeats it (see the counterexample). -/
theorem claim_C4_amended (env : List Message → Bool → Outcome)
    (er : String → String → String) (maxD : Nat) :
    ∀ fuel hist out depth,
      (runV1 env er maxD fuel hist out depth true).execs = [] ∧
      (runV1 env er maxD fuel hist out depth true).requests.all
        (fun b => b == false) = true ∧
      (runV1 env er maxD fuel hist out depth true).appended.countP
          (fun mg => decide (mg.role = Role.user))
        = (runV1 env er maxD fuel hist out depth true).requests.length ∧
      (runV1 env er maxD fuel hist out depth true).appended.all
        (fun mg => !(decide (mg.role = Role.user))
          || (mg.content == instructionText)) = true := by
  intro fuel
  induction fuel with
  | zero => intro hist out depth; refine ⟨rfl, rfl, rfl, rfl⟩
  | succ f ih =>
    intro hist out depth
    rcases hstop : out.stop with _ | ⟨n, payload⟩
    · by_cases hx : out.text = "" <;>
        simp [runV1, hstop, textCommit, hx]
    · -- the halted tool_use branch: one instruction message, one
      -- tool-less continuation request, then the recursive run
      have hrec := ih (hist ++ (textCommit out.text ++ [instructionMsg]))
        (env (hist ++ (textCommit out.text ++ [instructionMsg])) false) depth
      by_cases hx : out.text = "" <;>
      · simp only [textCommit, hx] at hrec ⊢
        simp [instructionMsg, instructionText] at hrec
        obtain ⟨he, ha, hc, hl⟩ := hrec
        simp [runV1, hstop, textCommit, hx, instructionMsg, instructionText,
          List.countP_cons, List.countP_append, he, ha, hc, hl]
        exact hl

/-- C4 (counterexample): a halted run against a model that keeps
requesting a capability does not stop after one tool-less continuation:
with three observed streams the code requests three continuation streams
and appends the instruction message three times (and would continue for
any number of further capability-requesting streams), contradicting
"exactly one further completion stream is requested ... no further
recursion regardless of that final stream's stop reason".  Capability
executions remain at zero throughout. -/
theorem claim_C4_counterexample :
    (runV1 (alwaysTool "t" "") (fun _ _ => "r") 10 3 []
      ⟨"", .toolUse "t" ""⟩ 0 true).requests.length = 3 ∧
    (runV1 (alwaysTool "t" "") (fun _ _ => "r") 10 3 []
      ⟨"", .toolUse "t" ""⟩ 0 true).appended.countP
        (fun mg => decide (mg.content = instructionText)) = 3 ∧
    (runV1 (alwaysTool "t" "") (fun _ _ => "r") 10 3 []
      ⟨"", .toolUse "t" ""⟩ 0 true).execs = [] ∧
    ¬ ((3:Nat) = 1) := by
  decide

/-- Unfolding one un-aborted step of the event loop. -/
theorem runEv_cons (p : String → Except String JsonVal)
    (er : Invocation → String) (halt : Bool) (s : EvState)
    (e : StreamEvent) (es : List StreamEvent) (hab : s.aborted = false) :
    runEv p er halt s (e :: es) = runEv p er halt (stepEv p er halt s e) es := by
  simp [runEv, hab]

/-- Dropping the head event can only lower the `message_delta` count. -/
theorem msgDeltaCount_cons_ge (e : StreamEvent) (es : List StreamEvent) :
    msgDeltaCount es ≤ msgDeltaCount (e :: es) := by
  cases e <;> simp [msgDeltaCount]

/-- At most one capability invocation is recorded per `message_delta`
chunk: over any stream suffix, the number of invocations grows by at
most the number of `message_delta` chunks. -/
theorem runEv_invocations_le (p : String → Except String JsonVal)
    (er : Invocation → String) (halt : Bool) :
    ∀ (es : List StreamEvent) (s : EvState),
      (runEv p er halt s es).invocations.length
        ≤ s.invocations.length + msgDeltaCount es := by
  intro es
  induction es with
  | nil => intro s; simp [runEv, msgDeltaCount]
  | cons e es ih =>
    intro s
    by_cases hab : s.aborted = true
    · have hskip : runEv p er halt s (e :: es) = runEv p er halt s es := by
        simp [runEv, hab]
      have h2 := ih s
      have h3 := msgDeltaCount_cons_ge e es
      rw [hskip]
      omega
    · rw [runEv_cons p er halt s e es (by simpa using hab)]
      have hstep : (stepEv p er halt s e).invocations.length
          ≤ s.invocations.length
            + (msgDeltaCount (e :: es) - msgDeltaCount es) := by
        rcases e with _ | b | d | _ | r | _ | raw
        · simp [stepEv, msgDeltaCount]
        · rcases b with n | _ <;> simp [stepEv, msgDeltaCount]
        · rcases d with t | j | _ <;> simp [stepEv, msgDeltaCount] <;> split <;> simp
        · simp [stepEv, msgDeltaCount]
        · simp only [stepEv, msgDeltaCount]
          split
          · split <;> simp
          · split <;> simp
        · simp [stepEv, msgDeltaCount]
        · simp [stepEv, msgDeltaCount]
      have h2 := ih (stepEv p er halt s e)
      have h3 := msgDeltaCount_cons_ge e es
      omega

/-- With a total parser, `toolArgsOf` always succeeds. -/
theorem toolArgsOf_ok (p : String → Except String JsonVal)
    (hp : ∀ str, ∃ v, p str = .ok v) (x : String) :
    ∃ v, toolArgsOf p x = .ok v := by
  by_cases hx : x = ""
  · exact ⟨.emptyObj, by simp [toolArgsOf, hx]⟩
  · obtain ⟨v, hv⟩ := hp x
    exact ⟨v, by simp [toolArgsOf, hx, hv]⟩

/-- Accumulator tracking for the variant-1 event loop: over a stream
whose `tool_use` blocks all carry non-empty names and whose non-empty
argument fragments only arrive after a tool block has started, and with
a total parser, the loop never aborts, the tool-name variable ends at
the last started block's name, and the argument accumulator ends as the
initial accumulator followed by the concatenation of every fragment —
neither variable is ever reset. -/
theorem runEv_track (p : String → Except String JsonVal)
    (er : Invocation → String) (hp : ∀ str, ∃ v, p str = .ok v) :
    ∀ (es : List StreamEvent) (s : EvState), s.aborted = false →
      allToolNamesNonempty es = true →
      noEarlyFrag es (decide (s.curToolName ≠ "")) = true →
      (runEv p er false s es).curToolName = lastToolName es s.curToolName ∧
      (runEv p er false s es).curToolInput
        = s.curToolInput ++ strJoin (allFrags es) ∧
      (runEv p er false s es).aborted = false := by
  intro es
  induction es with
  | nil =>
    intro s hab _ _
    refine ⟨rfl, ?_, hab⟩
    simp [runEv, lastToolName, allFrags, strJoin]
  | cons e es ih =>
    intro s hab hnames hearly
    rw [runEv_cons p er false s e es hab]
    rcases e with _ | b | d | _ | r | _ | raw
    · exact ih s hab hnames hearly
    · rcases b with n | _
      · have hn : (n ≠ "" : Bool) = true := by
          simp only [allToolNamesNonempty] at hnames
          exact (Bool.and_eq_true_iff.mp hnames).1
        have hnames2 : allToolNamesNonempty es = true := by
          simp only [allToolNamesNonempty] at hnames
          exact (Bool.and_eq_true_iff.mp hnames).2
        have hearly2 : noEarlyFrag es
            (decide ((stepEv p er false s
              (.contentBlockStart (.toolUse n))).curToolName ≠ "")) = true := by
          simp only [noEarlyFrag] at hearly
          simp only [stepEv]
          have : (decide (s.curToolName ≠ "") || (n ≠ "" : Bool)) = true := by
            rw [hn]; simp
          rw [this] at hearly
          simpa [hn] using hearly
        have hres := ih (stepEv p er false s (.contentBlockStart (.toolUse n)))
          (by simp [stepEv, hab]) hnames2 hearly2
        refine ⟨?_, ?_, hres.2.2⟩
        · rw [hres.1]; simp [stepEv, lastToolName]
        · rw [hres.2.1]; simp [stepEv, allFrags]
      · exact ih s hab hnames hearly
    · rcases d with t | j | _
      · have hres := ih { s with cur := s.cur ++ t } hab hnames hearly
        refine ⟨?_, ?_, hres.2.2⟩
        · rw [show stepEv p er false s (.contentBlockDelta (.textDelta t))
              = { s with cur := s.cur ++ t } from rfl]
          rw [hres.1]; simp [lastToolName]
        · rw [show stepEv p er false s (.contentBlockDelta (.textDelta t))
              = { s with cur := s.cur ++ t } from rfl]
          rw [hres.2.1]; simp [allFrags]
      · -- input_json_delta: fragment appended iff a tool name is set
        -- and the fragment is non-empty; dropped fragments are empty
        by_cases hseen : s.curToolName = ""
        · have hj2 : j = "" ∧ noEarlyFrag es false = true := by
            simpa [noEarlyFrag, hseen] using hearly
          have hstep : stepEv p er false s
              (.contentBlockDelta (.inputJsonDelta j)) = s := by
            simp [stepEv, hseen]
          rw [hstep]
          have hres := ih s hab hnames (by simpa [hseen] using hj2.2)
          refine ⟨by rw [hres.1]; simp [lastToolName], ?_, hres.2.2⟩
          rw [hres.2.1]
          simp [allFrags, hj2.1, strJoin]
        · have hd2 : noEarlyFrag es (decide (s.curToolName ≠ "")) = true := by
            simp only [noEarlyFrag] at hearly
            exact (Bool.and_eq_true_iff.mp hearly).2
          by_cases hj : j = ""
          · have hstep : stepEv p er false s
                (.contentBlockDelta (.inputJsonDelta j)) = s := by
              simp [stepEv, hj]
            rw [hstep]
            have hres := ih s hab hnames hd2
            refine ⟨by rw [hres.1]; simp [lastToolName], ?_, hres.2.2⟩
            rw [hres.2.1]
            simp [allFrags, hj, strJoin]
          · have hstep : stepEv p er false s
                (.contentBlockDelta (.inputJsonDelta j))
                = { s with curToolInput := s.curToolInput ++ j } := by
              simp [stepEv, hseen, hj]
            rw [hstep]
            have hres := ih { s with curToolInput := s.curToolInput ++ j }
              hab hnames (by simpa using hd2)
            refine ⟨by rw [hres.1]; simp [lastToolName], ?_, hres.2.2⟩
            rw [hres.2.1]
            simp [allFrags, strJoin, String.append_assoc]
      · exact ih s hab hnames hearly
    · exact ih s hab hnames hearly
    · -- message_delta: history, stops and invocations change, but the
      -- accumulators survive and a total parser never aborts
      have hcur : (stepEv p er false s (.messageDelta r)).curToolName
            = s.curToolName ∧
          (stepEv p er false s (.messageDelta r)).curToolInput
            = s.curToolInput ∧
          (stepEv p er false s (.messageDelta r)).aborted = false := by
        simp only [stepEv]
        split
        · obtain ⟨v, hv⟩ := toolArgsOf_ok p hp s.curToolInput
          rw [hv]
          exact ⟨rfl, rfl, by simpa using hab⟩
        · split
          · exact ⟨rfl, rfl, by simpa using hab⟩
          · exact ⟨rfl, rfl, by simpa using hab⟩
      have hres := ih (stepEv p er false s (.messageDelta r)) hcur.2.2
        hnames (by rw [hcur.1]; exact hearly)
      refine ⟨?_, ?_, hres.2.2⟩
      · rw [hres.1, hcur.1]; simp [lastToolName]
      · rw [hres.2.1, hcur.2.1]; simp [allFrags]
    · exact ih s hab hnames hearly
    · exact ih s hab hnames hearly

/-- C10: within one stream the variant-1 loop performs at most one
capability invocation per `message_delta` chunk; and because neither the
tool-name variable nor the argument accumulator is reset at
`content_block_stop`, when a stream contains several `tool_use` blocks
before its `tool_use` stop, the invocation performed at the stop uses
the name of the last started block together with the concatenation of
every argument fragment of the whole stream. -/
theorem claim_C10 (p : String → Except String JsonVal)
    (er : Invocation → String) (body : List StreamEvent)
    (hp : ∀ str, ∃ v, p str = .ok v)
    (h1 : allToolNamesNonempty body = true)
    (h2 : noEarlyFrag body false = true)
    (h3 : 2 ≤ toolStartCount body) :
    (runEv p er false initEv
        (body ++ [.messageDelta (some "tool_use")])).invocations.length
      ≤ msgDeltaCount (body ++ [.messageDelta (some "tool_use")]) ∧
    ∃ a, (runEv p er false initEv
        (body ++ [.messageDelta (some "tool_use")])).invocations.getLast?
      = some ⟨lastToolName body "", strJoin (allFrags body), a⟩ := by
  constructor
  · have h := runEv_invocations_le p er false
      (body ++ [.messageDelta (some "tool_use")]) initEv
    simpa [initEv] using h
  · have htr := runEv_track p er hp body initEv rfl h1
      (by simpa [initEv] using h2)
    have happ : runEv p er false initEv
          (body ++ [.messageDelta (some "tool_use")])
        = runEv p er false (runEv p er false initEv body)
            [.messageDelta (some "tool_use")] := by
      simp [runEv, List.foldl_append]
    obtain ⟨v, hv⟩ := toolArgsOf_ok p hp
      (runEv p er false initEv body).curToolInput
    have ht1 : (runEv p er false initEv body).curToolName
        = lastToolName body "" := htr.1
    have ht2 : (runEv p er false initEv body).curToolInput
        = strJoin (allFrags body) := htr.2.1
    have hone : runEv p er false (runEv p er false initEv body)
          [.messageDelta (some "tool_use")]
        = stepEv p er false (runEv p er false initEv body)
            (.messageDelta (some "tool_use")) := by
      have hrfl : runEv p er false (runEv p er false initEv body)
            [.messageDelta (some "tool_use")]
          = if (runEv p er false initEv body).aborted = true
            then runEv p er false initEv body
            else stepEv p er false (runEv p er false initEv body)
              (.messageDelta (some "tool_use")) := rfl
      rw [hrfl, htr.2.2]
      simp
    refine ⟨v, ?_⟩
    rw [happ, hone]
    simp only [stepEv, hv]
    rw [← ht1, ← ht2]
    simp [List.getLast?_concat]

theorem claim_C10_witness :
    lastToolName
      [.contentBlockStart (.toolUse "a1"),
       .contentBlockDelta (.inputJsonDelta "ab"),
       .contentBlockStart (.toolUse "b2"),
       .contentBlockDelta (.inputJsonDelta "cd")] "" = "b2" ∧
    strJoin (allFrags
      [.contentBlockStart (.toolUse "a1"),
       .contentBlockDelta (.inputJsonDelta "ab"),
       .contentBlockStart (.toolUse "b2"),
       .contentBlockDelta (.inputJsonDelta "cd")]) = "abcd" ∧
    ∃ a, (runEv (fun str => .ok (.parsedVal str)) (fun i => i.name) false
        initEv
        ([.contentBlockStart (.toolUse "a1"),
          .contentBlockDelta (.inputJsonDelta "ab"),
          .contentBlockStart (.toolUse "b2"),
          .contentBlockDelta (.inputJsonDelta "cd")]
          ++ [.messageDelta (some "tool_use")])).invocations.getLast?
      = some ⟨"b2", "abcd", a⟩ := by
  refine ⟨by decide, by decide, ?_⟩
  have h := claim_C10 (fun str => .ok (.parsedVal str)) (fun i => i.name)
    [.contentBlockStart (.toolUse "a1"),
     .contentBlockDelta (.inputJsonDelta "ab"),
     .contentBlockStart (.toolUse "b2"),
     .contentBlockDelta (.inputJsonDelta "cd")]
    (fun str => ⟨.parsedVal str, rfl⟩) (by decide) (by decide) (by decide)
  obtain ⟨a, ha⟩ := h.2
  exact ⟨a, by rw [ha]; rfl⟩
